import Mathlib

/-!
Verification of the bovespa-insights evaluation pipeline.

Shallow embedding of the core of the repository:
  - the stock entity model from src/domain/stock/stock.ts;
  - the mapping and scoring pass of the App component in src/pages/app.tsx
    (main-holder fold, event-amount sum, insight evaluation via Promise.all,
    score string, name sanitization, descending sort, row-click lookup).

JS numbers are modelled as rationals; the claims under study concern which
values are combined, not floating-point rounding.  A rejected Promise is
modelled as the error case of Except; Promise.all over a mapped list is
modelled by a function that returns the list of results in order when every
element succeeds and the error of a failing element otherwise, which is
exactly what a caller awaiting Promise.all observes.
-/

/-- Holder record from src/domain/stock/stock.ts. -/
structure Holder where
  name : String
  ordinaryShares : ℚ
  preferredShares : ℚ
  totalShares : ℚ
  deriving DecidableEq, Repr

/-- StockState record from src/domain/stock/stock.ts. -/
structure StockState where
  price : ℚ
  priceToEarnings : ℚ
  holders : List Holder
  deriving DecidableEq, Repr

/-- StockEvent record from src/domain/stock/stock.ts. -/
structure StockEvent where
  date : ℤ
  amount : ℚ
  type : String
  deriving DecidableEq, Repr

/-- StockHistory record from src/domain/stock/stock.ts. -/
structure StockHistory where
  period : String
  earningsPerShare : ℚ
  deriving DecidableEq, Repr

/-- Stock record from src/domain/stock/stock.ts. -/
structure Stock where
  name : String
  business : String
  currentState : StockState
  events : List StockEvent
  history : List StockHistory
  deriving DecidableEq, Repr

/-- Modelled from the spec: the Insight capability (section 4.1).  The
concrete insight classes (DividendConstancy, PriceToEarnings,
ProfitConstancy5Years, ProfitConstancy10Years, imported by src/pages/app.tsx
from src/domain/stock/insight) are not part of the sources under study; the
spec describes an insight as exposing a single evaluation operation
producing true/false or a failure.  A failure of the asynchronous verify
call is the error case. -/
structure Insight where
  verify : Stock → Except String Bool

/-- MappedStock record from src/pages/app.tsx.  The source formats
totalDividendsLast5Years with toFixed(4); decimal formatting is a non-goal
of the spec and no claim mentions it, so the field keeps the numeric value
whose derivation the claims are about. -/
structure MappedStock where
  name : String
  business : String
  price : ℚ
  mainHolder : String
  totalDividendsLast5Years : ℚ
  insightsScore : String
  positiveInsights : ℕ
  deriving DecidableEq, Repr

/-- One step of the reduce at src/pages/app.tsx lines 55-63: the accumulator
is replaced only when the candidate holder has strictly more total shares. -/
def holderStep (acc h : Holder) : Holder :=
  if acc.totalShares < h.totalShares then h else acc

/-- The main-holder reduce at src/pages/app.tsx lines 55-63, with its
initial accumulator record whose name is empty and whose totalShares is 0. -/
def mainHolder (holders : List Holder) : Holder :=
  holders.foldl holderStep { name := "", ordinaryShares := 0, preferredShares := 0, totalShares := 0 }

/-- The initial accumulator of the main-holder reduce. -/
def sentinelHolder : Holder :=
  { name := "", ordinaryShares := 0, preferredShares := 0, totalShares := 0 }

/-- The reduce at src/pages/app.tsx lines 65-67: sum of event.amount over
stock.events starting from 0. -/
def totalDividendsLast5Years (s : Stock) : ℚ :=
  s.events.foldl (fun acc e => acc + e.amount) 0

/-- Characters kept by the replace at src/pages/app.tsx line 75: the regex
removes every character outside word characters and whitespace, so a
character is kept when it is an ASCII letter, an ASCII digit, an underscore
or a whitespace character. -/
def keepChar (c : Char) : Bool :=
  c.isAlpha || c.isDigit || c == '_' ||
    c == ' ' || c == '\t' || c == '\n' || c == '\r' || c == '\x0b' || c == '\x0c'

/-- The name sanitization at src/pages/app.tsx line 75: remove every
character that is not kept. -/
def sanitizeName (s : String) : String :=
  String.mk (s.data.filter keepChar)

/-- Rendering of a JS number that is an integer, as used by the template
literal for the main-holder cell; every value the claims exercise is
integral, where ECMAScript prints the plain integer. -/
def numToString (q : ℚ) : String :=
  if q.den = 1 then toString q.num else toString q

/-- The main-holder display string at src/pages/app.tsx line 78. -/
def mainHolderDisplay (h : Holder) : String :=
  h.name ++ " (" ++ numToString h.totalShares ++ "%)"

/-- Promise.all over an already mapped list: the ordered list of results
when every element resolves, the error of a failing element otherwise. -/
def promiseAll {ε α : Type} : List (Except ε α) → Except ε (List α)
  | [] => .ok []
  | .error e :: _ => .error e
  | .ok a :: rest =>
    match promiseAll rest with
    | .error e => .error e
    | .ok as => .ok (a :: as)

/-- The inner Promise.all at src/pages/app.tsx line 69: every insight of the
registry is applied to the stock. -/
def evaluate (reg : List Insight) (s : Stock) : Except String (List Bool) :=
  promiseAll (reg.map (fun i => i.verify s))

/-- The count of positive verdicts at src/pages/app.tsx line 69:
filter(res => res).length. -/
def countPositive (vs : List Bool) : ℕ :=
  (vs.filter id).length

/-- The body of the data.map callback at src/pages/app.tsx lines 54-85: one
stock is mapped to its MappedStock record; a failing insight evaluation
makes the whole callback reject. -/
def mapStock (reg : List Insight) (s : Stock) : Except String MappedStock :=
  (evaluate reg s).map (fun verdicts =>
    { name := sanitizeName s.name
      business := s.business
      price := s.currentState.price
      mainHolder := mainHolderDisplay (mainHolder s.currentState.holders)
      totalDividendsLast5Years := totalDividendsLast5Years s
      insightsScore := toString (countPositive verdicts) ++ "/" ++ toString reg.length
      positiveInsights := countPositive verdicts })

/-- The outer Promise.all at src/pages/app.tsx lines 53-86: the whole batch
of stocks is mapped. -/
def evalPass (reg : List Insight) (data : List Stock) : Except String (List MappedStock) :=
  promiseAll (data.map (mapStock reg))

/-- The sort comparator at src/pages/app.tsx line 88 is
(a, b) => b.positiveInsights - a.positiveInsights; a may be placed before b
exactly when the comparator is nonpositive. -/
def sortLe (a b : MappedStock) : Bool :=
  b.positiveInsights ≤ a.positiveInsights

/-- Insertion of one element into the sorted remainder: the element passes
over exactly the entries with a strictly larger positive count, so an entry
with an equal count is never overtaken. -/
def insertStock (x : MappedStock) : List MappedStock → List MappedStock
  | [] => [x]
  | y :: ys => if sortLe x y then x :: y :: ys else y :: insertStock x ys

/-- The sort at src/pages/app.tsx line 88.  ECMAScript requires
Array.prototype.sort to be stable and to order by the comparator; a stable
sort consistent with a total preorder has a unique output, modelled here by
stable insertion sort. -/
def sortByScore : List MappedStock → List MappedStock
  | [] => []
  | x :: xs => insertStock x (sortByScore xs)

/-- The row-click lookup at src/pages/app.tsx lines 141-144: the original
data is searched for a stock whose name equals the name of the clicked
mapped row. -/
def onRowClick (data : List Stock) (row : MappedStock) : Option Stock :=
  data.find? (fun s => s.name == row.name)

/-!  Concrete values used by witnesses and counterexamples. -/

/-- Holder A of the tie-break scenario of the spec. -/
def hA : Holder := { name := "A", ordinaryShares := 0, preferredShares := 0, totalShares := 40 }

/-- Holder B of the tie-break scenario of the spec. -/
def hB : Holder := { name := "B", ordinaryShares := 0, preferredShares := 0, totalShares := 60 }

/-- Holder C of the tie-break scenario of the spec. -/
def hC : Holder := { name := "C", ordinaryShares := 0, preferredShares := 0, totalShares := 60 }

/-- A holder whose totalShares is 0. -/
def holderZ : Holder := { name := "Z", ordinaryShares := 0, preferredShares := 0, totalShares := 0 }

/-- An insight that resolves to true on every stock. -/
def insTrue : Insight := ⟨fun _ => .ok true⟩

/-- An insight that resolves to false on every stock. -/
def insFalse : Insight := ⟨fun _ => .ok false⟩

/-- An insight whose evaluation rejects on every stock. -/
def insFail : Insight := ⟨fun _ => .error "insufficient history"⟩

/-- A concrete well-formed stock. -/
def stA : Stock :=
  { name := "AAAA3", business := "test"
    currentState := { price := 10, priceToEarnings := 5, holders := [hB] }
    events := [], history := [] }

/-- A second concrete well-formed stock. -/
def stB : Stock :=
  { name := "BBBB4", business := "test"
    currentState := { price := 20, priceToEarnings := 8, holders := [hA] }
    events := [], history := [] }

/-- The mapped record produced for stA by the registry [insTrue, insFalse]. -/
def mA : MappedStock :=
  { name := "AAAA3", business := "test", price := 10, mainHolder := "B (60%)"
    totalDividendsLast5Years := 0, insightsScore := "1/2", positiveInsights := 1 }

/-- A stock whose name holds a character that the sanitization removes. -/
def stDot : Stock :=
  { name := "PETR4.SA", business := "oil"
    currentState := { price := 10, priceToEarnings := 5, holders := [] }
    events := [], history := [] }

/-- The mapped record produced for stDot by the empty registry. -/
def mDot : MappedStock :=
  { name := "PETR4SA", business := "oil", price := 10, mainHolder := " (0%)"
    totalDividendsLast5Years := 0, insightsScore := "0/0", positiveInsights := 0 }

/-- Mapped records with positive counts 2, 4 and 1 for the ranking scenario. -/
def e2 : MappedStock :=
  { name := "E2", business := "t", price := 1, mainHolder := " (0%)"
    totalDividendsLast5Years := 0, insightsScore := "2/4", positiveInsights := 2 }

/-- Mapped record with positive count 4 for the ranking scenario. -/
def e4 : MappedStock :=
  { name := "E4", business := "t", price := 1, mainHolder := " (0%)"
    totalDividendsLast5Years := 0, insightsScore := "4/4", positiveInsights := 4 }

/-- Mapped record with positive count 1 for the ranking scenario. -/
def e1 : MappedStock :=
  { name := "E1", business := "t", price := 1, mainHolder := " (0%)"
    totalDividendsLast5Years := 0, insightsScore := "1/4", positiveInsights := 1 }

/-!  Helper lemmas. -/

/-- Full characterization of the main-holder fold for an arbitrary initial
accumulator: either no element has strictly more shares than the accumulator
and the fold returns the accumulator, or the fold returns the first element
that attains the maximum of the list and that maximum strictly exceeds the
accumulator. -/
theorem holderFold_spec (hs : List Holder) : ∀ acc : Holder,
    (hs.foldl holderStep acc = acc ∧ ∀ h ∈ hs, h.totalShares ≤ acc.totalShares) ∨
    (∃ pre m post, hs = pre ++ m :: post ∧ hs.foldl holderStep acc = m ∧
      acc.totalShares < m.totalShares ∧
      (∀ h ∈ pre, h.totalShares < m.totalShares) ∧
      (∀ h ∈ post, h.totalShares ≤ m.totalShares)) := by
  induction hs with
  | nil =>
    intro acc
    exact Or.inl ⟨rfl, by simp⟩
  | cons h t ih =>
    intro acc
    by_cases hlt : acc.totalShares < h.totalShares
    · have hstep : (h :: t).foldl holderStep acc = t.foldl holderStep h := by
        simp [List.foldl_cons, holderStep, hlt]
      rcases ih h with ⟨heq, hall⟩ | ⟨pre, m, post, hdec, heq, hacc, hpre, hpost⟩
      · refine Or.inr ⟨[], h, t, by simp, by rw [hstep, heq], hlt, by simp, hall⟩
      · refine Or.inr ⟨h :: pre, m, post, by simp [hdec], by rw [hstep, heq],
          lt_trans hlt hacc, ?_, hpost⟩
        intro x hx
        rcases List.mem_cons.mp hx with rfl | hx
        · exact hacc
        · exact hpre x hx
    · have hstep : (h :: t).foldl holderStep acc = t.foldl holderStep acc := by
        simp [List.foldl_cons, holderStep, hlt]
      rcases ih acc with ⟨heq, hall⟩ | ⟨pre, m, post, hdec, heq, hacc, hpre, hpost⟩
      · refine Or.inl ⟨by rw [hstep, heq], ?_⟩
        intro x hx
        rcases List.mem_cons.mp hx with rfl | hx
        · exact le_of_not_lt hlt
        · exact hall x hx
      · refine Or.inr ⟨h :: pre, m, post, by simp [hdec], by rw [hstep, heq], hacc, ?_, hpost⟩
        intro x hx
        rcases List.mem_cons.mp hx with rfl | hx
        · exact lt_of_le_of_lt (le_of_not_lt hlt) hacc
        · exact hpre x hx

/-- The main-holder fold is the fold from the sentinel accumulator. -/
theorem mainHolder_eq_fold (hs : List Holder) :
    mainHolder hs = hs.foldl holderStep sentinelHolder := rfl

/-- If one element of the list fails, Promise.all fails. -/
theorem promiseAll_isOk_false {ε α : Type} {x : Except ε α} {l : List (Except ε α)}
    (hx : x ∈ l) (hfail : x.isOk = false) : (promiseAll l).isOk = false := by
  induction l with
  | nil => cases hx
  | cons y ys ih =>
    rcases List.mem_cons.mp hx with rfl | hmem
    · cases x with
      | error e => simp [promiseAll, Except.isOk, Except.toBool]
      | ok a => simp [Except.isOk, Except.toBool] at hfail
    · cases y with
      | error e => simp [promiseAll, Except.isOk, Except.toBool]
      | ok a =>
        have hys := ih hmem
        cases hpy : promiseAll ys with
        | error e => simp [promiseAll, hpy, Except.isOk, Except.toBool]
        | ok as => rw [hpy] at hys; simp [Except.isOk, Except.toBool] at hys

/-- If Promise.all succeeds, its result has one entry per input. -/
theorem promiseAll_ok_length {ε α : Type} :
    ∀ {l : List (Except ε α)} {res : List α},
      promiseAll l = .ok res → res.length = l.length := by
  intro l
  induction l with
  | nil => intro res h; simp [promiseAll] at h; simp [← h]
  | cons y ys ih =>
    intro res h
    cases y with
    | error e => simp [promiseAll] at h
    | ok a =>
      cases hpy : promiseAll ys with
      | error e => rw [promiseAll, hpy] at h; cases h
      | ok as =>
        rw [promiseAll, hpy] at h
        cases h
        simp [ih hpy]

/-- If Promise.all succeeds, the result at any index is the value that the
input element at the same index resolved to. -/
theorem promiseAll_ok_get {ε α : Type} :
    ∀ (l : List (Except ε α)) (res : List α), promiseAll l = .ok res →
      ∀ i : ℕ, l.get? i = (res.get? i).map Except.ok := by
  intro l
  induction l with
  | nil =>
    intro res h i
    simp [promiseAll] at h
    subst h
    simp
  | cons y ys ih =>
    intro res h i
    cases y with
    | error e => simp [promiseAll] at h
    | ok a =>
      cases hpy : promiseAll ys with
      | error e => rw [promiseAll, hpy] at h; cases h
      | ok as =>
        rw [promiseAll, hpy] at h
        cases h
        cases i with
        | zero => simp
        | succ n => simpa using ih as hpy n

/-- A successful evaluation yields one verdict per registry entry. -/
theorem evaluate_ok_length {reg : List Insight} {s : Stock} {vs : List Bool}
    (h : evaluate reg s = .ok vs) : vs.length = reg.length := by
  have := promiseAll_ok_length h
  simpa using this

/-- A successful evaluation stores at index i the verdict of insight i. -/
theorem evaluate_ok_get {reg : List Insight} {s : Stock} {vs : List Bool}
    (h : evaluate reg s = .ok vs) (i : ℕ) :
    (reg.get? i).map (fun ins => ins.verify s) = (vs.get? i).map Except.ok := by
  have h2 : promiseAll (reg.map (fun ins => ins.verify s)) = .ok vs := h
  have hg := promiseAll_ok_get _ vs h2 i
  simpa [List.getElem?_map] using hg

/-- A successful stock mapping comes from a successful evaluation, and the
mapped record is built from its verdict list. -/
theorem mapStock_ok {reg : List Insight} {s : Stock} {m : MappedStock}
    (h : mapStock reg s = .ok m) :
    ∃ vs, evaluate reg s = .ok vs ∧
      m = { name := sanitizeName s.name
            business := s.business
            price := s.currentState.price
            mainHolder := mainHolderDisplay (mainHolder s.currentState.holders)
            totalDividendsLast5Years := totalDividendsLast5Years s
            insightsScore := toString (countPositive vs) ++ "/" ++ toString reg.length
            positiveInsights := countPositive vs } := by
  unfold mapStock at h
  cases hev : evaluate reg s with
  | error e => rw [hev] at h; cases h
  | ok vs =>
    rw [hev] at h
    simp [Except.map] at h
    exact ⟨vs, rfl, h.symm⟩

/-- Membership in an insertion. -/
theorem mem_insertStock {a x : MappedStock} {l : List MappedStock} :
    a ∈ insertStock x l ↔ a = x ∨ a ∈ l := by
  induction l with
  | nil => simp [insertStock]
  | cons y ys ih =>
    by_cases hle : sortLe x y
    · simp [insertStock, hle]
    · simp [insertStock, hle, ih]
      tauto

/-- Inserting into a list that is sorted by descending positive count keeps
it sorted. -/
theorem pairwise_insertStock {x : MappedStock} {l : List MappedStock}
    (hl : l.Pairwise (fun a b => b.positiveInsights ≤ a.positiveInsights)) :
    (insertStock x l).Pairwise (fun a b => b.positiveInsights ≤ a.positiveInsights) := by
  induction l with
  | nil => simp [insertStock]
  | cons y ys ih =>
    rcases List.pairwise_cons.mp hl with ⟨hy, hys⟩
    by_cases hle : sortLe x y
    · have hxy : y.positiveInsights ≤ x.positiveInsights := by
        simpa [sortLe] using hle
      have hins : insertStock x (y :: ys) = x :: y :: ys := by
        simp [insertStock, hle]
      rw [hins]
      refine List.pairwise_cons.mpr ⟨?_, hl⟩
      intro z hz
      rcases List.mem_cons.mp hz with rfl | hz
      · exact hxy
      · exact le_trans (hy z hz) hxy
    · have hyx : x.positiveInsights < y.positiveInsights := by
        simpa [sortLe] using hle
      have hins : insertStock x (y :: ys) = y :: insertStock x ys := by
        simp [insertStock, hle]
      rw [hins]
      refine List.pairwise_cons.mpr ⟨?_, ih hys⟩
      intro z hz
      rcases mem_insertStock.mp hz with rfl | hz
      · exact le_of_lt hyx
      · exact hy z hz

/-- The output of the modelled sort is sorted by descending positive count. -/
theorem sortByScore_pairwise (l : List MappedStock) :
    (sortByScore l).Pairwise (fun a b => b.positiveInsights ≤ a.positiveInsights) := by
  induction l with
  | nil => simp [sortByScore]
  | cons x xs ih => exact pairwise_insertStock ih

/-- Inserting an element never moves it past an element with the same
positive count: on the sublist at any given count, the insertion acts on the
front. -/
theorem filter_insertStock (x : MappedStock) (l : List MappedStock) (k : ℕ) :
    (insertStock x l).filter (fun a => a.positiveInsights == k) =
      if x.positiveInsights == k then
        x :: l.filter (fun a => a.positiveInsights == k)
      else l.filter (fun a => a.positiveInsights == k) := by
  induction l with
  | nil =>
    cases hpx : (x.positiveInsights == k) <;>
      simp [insertStock, List.filter_cons, hpx]
  | cons y ys ih =>
    by_cases hle : sortLe x y
    · cases hpx : (x.positiveInsights == k) <;>
        simp [insertStock, hle, List.filter_cons, hpx]
    · have hyx : x.positiveInsights < y.positiveInsights := by
        simpa [sortLe] using hle
      by_cases hpx : x.positiveInsights = k
      · have hpy : ¬ (y.positiveInsights = k) := by omega
        simp [insertStock, hle, List.filter_cons, hpx, hpy, ih]
      · simp only [insertStock, if_neg hle, List.filter_cons, ih]
        cases hpy : (y.positiveInsights == k) <;>
          simp [hpx, hpy]

/-- The modelled sort is stable: the sublist of entries with any given
positive count is unchanged. -/
theorem sortByScore_filter (l : List MappedStock) (k : ℕ) :
    (sortByScore l).filter (fun a => a.positiveInsights == k) =
      l.filter (fun a => a.positiveInsights == k) := by
  induction l with
  | nil => rfl
  | cons x xs ih =>
    show (insertStock x (sortByScore xs)).filter _ = _
    rw [filter_insertStock]
    cases hpx : (x.positiveInsights == k) <;> simp [List.filter_cons, hpx, ih]

/-- Folding addition of the event amounts from any accumulator adds the sum
of the mapped amounts. -/
theorem foldl_amount (l : List StockEvent) :
    ∀ acc : ℚ, l.foldl (fun a e => a + e.amount) acc = acc + (l.map StockEvent.amount).sum := by
  induction l with
  | nil => intro acc; simp
  | cons e t ih => intro acc; simp [List.foldl_cons, ih, add_assoc]

/-- Skipping a prefix on which the predicate is false leaves find?
unchanged. -/
theorem find?_prefix_false {α : Type} (p : α → Bool) :
    ∀ (pre l : List α), (∀ x ∈ pre, p x = false) →
      List.find? p (pre ++ l) = List.find? p l := by
  intro pre
  induction pre with
  | nil => intro l _; rfl
  | cons x xs ih =>
    intro l hf
    have hx : p x = false := hf x (List.mem_cons_self _ _)
    rw [List.cons_append, List.find?_cons_of_neg _ (by simp [hx]), ih l]
    intro z hz
    exact hf z (List.mem_cons_of_mem _ hz)

/-!  Claim theorems. -/

/-- C2 (confirmed): for every entity, the derived totalDividendsLast5Years
equals the sum of Event.amount over ALL of the events of the entity; no
event is excluded by date or by type, since the sum ranges over the whole
list of events. -/
theorem totalDividends_sums_all_events (s : Stock) :
    totalDividendsLast5Years s = (s.events.map StockEvent.amount).sum := by
  have h := foldl_amount s.events 0
  simpa [totalDividendsLast5Years] using h

/-- C3 (counterexample): a non-empty holder list on which the claim as
stated fails: with the single holder Z whose totalShares is 0, the computed
main holder is not a holder of the list at all (it is the initial
accumulator record), so it is not the holder with maximum totalShares. -/
theorem mainHolder_max_counterexample :
    ([holderZ] : List Holder) ≠ [] ∧ mainHolder [holderZ] ∉ [holderZ] ∧
      (mainHolder [holderZ]).name ≠ holderZ.name := by decide

/-- C3 (amended): for every entity whose holder list contains a holder with
strictly positive totalShares, the derived mainHolder is the first holder
of the list attaining the maximum totalShares, and a later holder with an
equal totalShares never replaces an earlier one; in particular for the
list [A 40, B 60, C 60] the selected main holder is B. -/
theorem mainHolder_first_max (hs : List Holder)
    (hpos : ∃ x ∈ hs, 0 < x.totalShares) :
    hs.find? (fun a => hs.all (fun b => decide (b.totalShares ≤ a.totalShares)))
        = some (mainHolder hs) ∧
    (mainHolder [hA, hB, hC]).name = "B" := by
  refine ⟨?_, by decide⟩
  rcases holderFold_spec hs sentinelHolder with ⟨heq, hall⟩ |
    ⟨pre, m, post, hdec, heq, hacc, hpre, hpost⟩
  · obtain ⟨x, hx, hxpos⟩ := hpos
    have h0 : x.totalShares ≤ 0 := by simpa [sentinelHolder] using hall x hx
    exact absurd hxpos (not_lt.mpr h0)
  · subst hdec
    have hmain : mainHolder (pre ++ m :: post) = m := by
      rw [mainHolder_eq_fold]; exact heq
    rw [hmain]
    have hmem : m ∈ pre ++ m :: post :=
      List.mem_append_right _ (List.mem_cons_self _ _)
    have hprefalse : ∀ x ∈ pre,
        ((pre ++ m :: post).all (fun b => decide (b.totalShares ≤ x.totalShares))) = false := by
      intro x hx
      apply Bool.eq_false_iff.mpr
      intro htrue
      have hmx : m.totalShares ≤ x.totalShares := by
        simpa using List.all_eq_true.mp htrue m hmem
      exact absurd (hpre x hx) (not_lt.mpr hmx)
    have hPm : ((pre ++ m :: post).all (fun b => decide (b.totalShares ≤ m.totalShares))) = true := by
      apply List.all_eq_true.mpr
      intro b hb
      rcases List.mem_append.mp hb with hb | hb
      · exact decide_eq_true (le_of_lt (hpre b hb))
      · rcases List.mem_cons.mp hb with rfl | hb
        · exact decide_eq_true le_rfl
        · exact decide_eq_true (hpost b hb)
    rw [find?_prefix_false _ pre _ hprefalse]
    exact List.find?_cons_of_pos _ hPm

/-- C3 (witness): the amended theorem applied to the tie-break scenario of
the spec. -/
theorem mainHolder_first_max_witness :
    ([hA, hB, hC] : List Holder).find?
        (fun a => ([hA, hB, hC] : List Holder).all
          (fun b => decide (b.totalShares ≤ a.totalShares)))
        = some (mainHolder [hA, hB, hC]) ∧
    (mainHolder [hA, hB, hC]).name = "B" :=
  mainHolder_first_max [hA, hB, hC] (by decide)

/-- C10 (confirmed): when every holder has totalShares at most 0 (and in
particular when the holder list is empty), the computed main holder is the
sentinel accumulator record, whose display string is " (0%)"; and for any
holder list, a real list member is selected only when its totalShares is
strictly positive. -/
theorem mainHolder_sentinel (hs hs2 : List Holder)
    (h : ∀ x ∈ hs, x.totalShares ≤ 0) :
    mainHolder hs = sentinelHolder ∧
    mainHolderDisplay (mainHolder hs) = " (0%)" ∧
    (mainHolder hs2 = sentinelHolder ∨
      (mainHolder hs2 ∈ hs2 ∧ 0 < (mainHolder hs2).totalShares)) := by
  have hfix : mainHolder hs = sentinelHolder := by
    rcases holderFold_spec hs sentinelHolder with ⟨heq, _⟩ |
      ⟨pre, m, post, hdec, heq, hacc, _, _⟩
    · rw [mainHolder_eq_fold]; exact heq
    · have hm : m ∈ hs := by
        rw [hdec]; exact List.mem_append_right _ (List.mem_cons_self _ _)
      have h2 : (0:ℚ) < m.totalShares := by simpa [sentinelHolder] using hacc
      exact absurd h2 (not_lt.mpr (h m hm))
  refine ⟨hfix, by rw [hfix]; decide, ?_⟩
  rcases holderFold_spec hs2 sentinelHolder with ⟨heq, _⟩ |
    ⟨pre, m, post, hdec, heq, hacc, _, _⟩
  · exact Or.inl (by rw [mainHolder_eq_fold]; exact heq)
  · refine Or.inr ⟨?_, ?_⟩
    · rw [mainHolder_eq_fold, heq, hdec]
      exact List.mem_append_right _ (List.mem_cons_self _ _)
    · rw [mainHolder_eq_fold, heq]
      simpa [sentinelHolder] using hacc

/-- C10 (witness): the theorem applied to the list holding only the
zero-share holder Z, and to the singleton list holding B. -/
theorem mainHolder_sentinel_witness :
    mainHolder [holderZ] = sentinelHolder ∧
    mainHolderDisplay (mainHolder [holderZ]) = " (0%)" ∧
    (mainHolder [hB] = sentinelHolder ∨
      (mainHolder [hB] ∈ [hB] ∧ 0 < (mainHolder [hB]).totalShares)) :=
  mainHolder_sentinel [holderZ] [hB] (by decide)

/-- C5 (confirmed): for every entity and registry, a completed evaluation
produces exactly one verdict per Insight of the registry, and the verdict
list preserves registry order: at every index the stored verdict is the one
the insight at that index resolved to. -/
theorem evaluate_length_and_order (reg : List Insight) (s : Stock)
    (vs : List Bool) (i : ℕ) (h : evaluate reg s = .ok vs) :
    vs.length = reg.length ∧
    (reg.get? i).map (fun ins => ins.verify s) = (vs.get? i).map Except.ok :=
  ⟨evaluate_ok_length h, evaluate_ok_get h i⟩

/-- C5 (witness): the registry [insTrue, insFalse] evaluated on stA yields
the two verdicts [true, false] in registry order. -/
theorem evaluate_length_and_order_witness :
    ([true, false] : List Bool).length = ([insTrue, insFalse] : List Insight).length ∧
    (([insTrue, insFalse] : List Insight).get? 1).map (fun ins => ins.verify stA) =
      (([true, false] : List Bool).get? 1).map Except.ok :=
  evaluate_length_and_order [insTrue, insFalse] stA [true, false] 1 rfl

/-- C6 (confirmed): for every evaluated entity, the positive-insight count
is at most the number of Insights in the registry. -/
theorem positiveInsights_le_total {reg : List Insight} {s : Stock}
    {m : MappedStock} (h : mapStock reg s = .ok m) :
    m.positiveInsights ≤ reg.length := by
  obtain ⟨vs, hev, rfl⟩ := mapStock_ok h
  have hlen := evaluate_ok_length hev
  calc countPositive vs ≤ vs.length := List.length_filter_le _ _
    _ = reg.length := hlen

/-- C6 (witness): the record mapped for stA under the registry
[insTrue, insFalse] counts 1 positive insight out of 2. -/
theorem positiveInsights_le_total_witness :
    mA.positiveInsights ≤ ([insTrue, insFalse] : List Insight).length :=
  @positiveInsights_le_total [insTrue, insFalse] stA mA rfl

/-- C7 (confirmed): for every evaluated entity, the derived insightsScore is
exactly the string "<positiveCount>/<total>" built from the positive count
and the registry size. -/
theorem insightsScore_format {reg : List Insight} {s : Stock}
    {m : MappedStock} (h : mapStock reg s = .ok m) :
    m.insightsScore = toString m.positiveInsights ++ "/" ++ toString reg.length := by
  obtain ⟨vs, hev, rfl⟩ := mapStock_ok h
  rfl

/-- C7 (witness): the record mapped for stA under the registry
[insTrue, insFalse] carries the score string "1/2". -/
theorem insightsScore_format_witness :
    mA.insightsScore = toString mA.positiveInsights ++ "/" ++
      toString ([insTrue, insFalse] : List Insight).length :=
  @insightsScore_format [insTrue, insFalse] stA mA rfl

/-- C1 (counterexample): a batch of two well-formed stocks evaluated under a
registry holding one always-true insight and one insight whose evaluation
fails.  Each stock maps successfully under the healthy registry and the
failing insight alone is the failing unit, yet the whole pass returns the
error: the caller receives no result set at all, for either entity. -/
theorem evalPass_abort_counterexample :
    (insFail.verify stA).isOk = false ∧
    (mapStock [insTrue] stA).isOk = true ∧
    (mapStock [insTrue] stB).isOk = true ∧
    (evalPass [insTrue] [stA, stB]).isOk = true ∧
    evalPass [insTrue, insFail] [stA, stB] = .error "insufficient history" :=
  ⟨rfl, rfl, rfl, rfl, rfl⟩

/-- C1 (amended): failures are not isolated.  Whenever the evaluation of a
single stock of the batch fails (for instance because one insight of the
registry fails on it), the whole evaluation pass rejects: the caller
receives an error rather than a result set for the remaining entities. -/
theorem evalPass_aborts_on_single_failure (reg : List Insight)
    (data : List Stock) (s : Stock) (hmem : s ∈ data)
    (hfail : (mapStock reg s).isOk = false) :
    (evalPass reg data).isOk = false :=
  promiseAll_isOk_false (List.mem_map_of_mem (mapStock reg) hmem) hfail

/-- C1 (witness): the amended theorem applied to the concrete two-stock
batch under the registry holding the failing insight. -/
theorem evalPass_aborts_on_single_failure_witness :
    (evalPass [insTrue, insFail] [stA, stB]).isOk = false :=
  evalPass_aborts_on_single_failure [insTrue, insFail] [stA, stB] stA
    (List.mem_cons_self _ _) rfl

/-- C4 (confirmed): the output of the sort at line 88 is ordered by
positiveInsights descending; the sort is stable, since for every count k
the sublist of records carrying exactly k positive insights is exactly the
corresponding sublist of the input, in input order; and the three records
with positive counts [2, 4, 1] are returned in the order [4, 2, 1]. -/
theorem sortByScore_spec (l : List MappedStock) (k : ℕ) :
    (sortByScore l).Pairwise (fun a b => b.positiveInsights ≤ a.positiveInsights) ∧
    (sortByScore l).filter (fun a => a.positiveInsights == k) =
      l.filter (fun a => a.positiveInsights == k) ∧
    sortByScore [e2, e4, e1] = [e4, e2, e1] :=
  ⟨sortByScore_pairwise l, sortByScore_filter l k, by decide⟩

/-- C9 (confirmed): if the name of a stock holds at least one character
outside letters, digits, underscore and whitespace, then the mapped record
carries a different name from the original stock; and when no stock of the
data has the sanitized string as its name, the row-click lookup finds no
entity, so the detail view never opens for that row. -/
theorem sanitized_name_breaks_lookup (reg : List Insight) (s : Stock)
    (data : List Stock) (m : MappedStock) (hm : mapStock reg s = .ok m)
    (hbad : ∃ c ∈ s.name.data, keepChar c = false)
    (hnone : ∀ t ∈ data, t.name ≠ sanitizeName s.name) :
    m.name ≠ s.name ∧ onRowClick data m = none := by
  obtain ⟨vs, hev, rfl⟩ := mapStock_ok hm
  constructor
  · show sanitizeName s.name ≠ s.name
    intro heq
    have hdata : s.name.data.filter keepChar = s.name.data := congrArg String.data heq
    obtain ⟨c, hc, hcf⟩ := hbad
    have := List.filter_eq_self.mp hdata c hc
    rw [hcf] at this
    cases this
  · apply List.find?_eq_none.mpr
    intro t ht
    simp only [beq_iff_eq]
    intro heq
    exact hnone t ht heq

/-- C9 (witness): the stock named "PETR4.SA" is mapped (under the empty
registry) to a record named "PETR4SA"; looking the mapped name up in the
one-stock data list finds nothing. -/
theorem sanitized_name_breaks_lookup_witness :
    mDot.name ≠ stDot.name ∧ onRowClick [stDot] mDot = none :=
  sanitized_name_breaks_lookup [] stDot [stDot] mDot rfl (by decide) (by decide)
